import Mathlib

/-!
# Verification of the cc-insights proxy and anonymizer

A shallow embedding, in Lean 4, of the two Python source files of the
repository:

* `src/tools/claude-mitm.py` — an asyncio man-in-the-middle proxy that
  launches a child binary, forwards the three standard streams, and logs
  every newline-delimited record to a JSONL file;
* `src/tools/anonymize_uuids.py` — a batch tool that rewrites UUIDs in
  JSONL log files through a consistent per-run mapping.

Bytes are modelled as `Nat` (the value of the byte, `0 ≤ b < 256` in any
real run; no arithmetic below depends on the bound).  A chunk, as
returned by one `reader.read(4096)` call, is a `List Nat`; the sequence
of non-empty reads of one stream is a `List (List Nat)` (the code breaks
its loop at the first empty read, which we model as the end of the
list — an explicit empty chunk in the list behaves like EOF, exactly as
`if not data: break` does).
-/

namespace CCInsights

/-- The newline byte, `b"\n"`. -/
def nlByte : Nat := 10

/-- `splitNl bs` splits a byte string at every newline byte, keeping
empty segments, exactly as Python's `bs.split(b"\n")` does: the result
always has one more segment than there are newline bytes, and
`bs = segment₀ ++ "\n" ++ segment₁ ++ ... ++ segmentₖ`. -/
def splitNl : List Nat → List (List Nat)
  | [] => [[]]
  | b :: bs =>
    if b = nlByte then [] :: splitNl bs
    else
      match splitNl bs with
      | [] => [[b]]
      | p :: ps => (b :: p) :: ps

/-- `breakNl buf` is Python's `buf.split(b"\n", 1)` restricted to the
case used by the source: `some (line, rest)` when `buf` contains a
newline (`buf = line ++ "\n" ++ rest`, `line` newline-free), and `none`
when it does not (the `while b"\n" in buffer` guard fails). -/
def breakNl : List Nat → Option (List Nat × List Nat)
  | [] => none
  | b :: bs =>
    if b = nlByte then some ([], bs)
    else
      match breakNl bs with
      | none => none
      | some (l, r) => some (b :: l, r)

/-- One run of the inner `while b"\n" in buffer:` loop of `pipe_stdin` /
`pipe_output` (claude-mitm.py lines 68–71 and 99–102): repeatedly split
the buffer at the first newline, emitting each non-empty line, and
return the emitted lines together with the final (newline-free)
buffer.  `fuel` bounds the number of iterations; each iteration
consumes at least the newline byte, so `buf.length` iterations always
suffice. -/
def drainLinesFuel : Nat → List Nat → List (List Nat) × List Nat
  | 0, buf => ([], buf)
  | fuel + 1, buf =>
    match breakNl buf with
    | none => ([], buf)
    | some (line, rest) =>
      let (ls, rem) := drainLinesFuel fuel rest
      (if line.isEmpty then ls else line :: ls, rem)

/-- The inner logging loop of the two pipe coroutines, with adequate
fuel. -/
def drainLines (buf : List Nat) : List (List Nat) × List Nat :=
  drainLinesFuel buf.length buf

/-- The shared shape of the read loops of `pipe_stdin` (lines 55–71) and
`pipe_output` (lines 86–102): for each chunk read, forward it to the
destination, append it to the line buffer, and log the complete
non-empty lines.  Returns the bytes written to the destination inside
the loop, the payloads logged inside the loop, and the final line
buffer.  An empty chunk is the `if not data: break` end-of-stream
signal. -/
def forwardLoop : List (List Nat) → List Nat → List Nat × List (List Nat) × List Nat
  | [], buf => ([], [], buf)
  | c :: cs, buf =>
    if c.isEmpty then ([], [], buf)
    else
      let (ls, buf2) := drainLines (buf ++ c)
      let (fwd, recs, bufF) := forwardLoop cs buf2
      (c ++ fwd, ls ++ recs, bufF)

/-- The line buffer left over after the read loop (used by the
`finally:` blocks). -/
def finalBuffer (chunks : List (List Nat)) : List Nat :=
  (forwardLoop chunks []).2.2

/-- The non-empty newline-delimited lines of a byte string, Python's
split with empty segments discarded.  This is the specification-side
description of what one direction's log payloads should be: the
trailing segment (the part after the last newline, or the whole string
if there is none) is included exactly when non-empty, matching both the
in-loop `if line:` filter and the `if buffer:` flush guard. -/
def nonEmptyLines (bs : List Nat) : List (List Nat) :=
  (splitNl bs).filter (fun l => !l.isEmpty)

/-- The UTF-8 bytes of a string, as `Nat`s — Python's `s.encode()`. -/
def strBytes (s : String) : List Nat :=
  s.toUTF8.toList.map (fun b => b.toNat)

/-- How a pipe coroutine's loop ends.  `eof` is the natural path (a
zero-length read breaks the loop); `err msg` models an exception raised
by a read or write after the listed chunks were processed, caught by
the coroutine's own `except Exception` clause (`msg` is
`str(e).encode()`); `cancel` models `task.cancel()` from `main`
delivering `asyncio.CancelledError` at the next await point —
`CancelledError` derives from `BaseException`, so the `except
Exception` clause does *not* catch it, but the `finally:` block still
runs. -/
inductive Teardown
  | eof : Teardown
  | err (msg : List Nat) : Teardown
  | cancel : Teardown

/-- A log call, before timestamping/serialization: direction tag and
payload bytes, the two arguments of `log(direction, data)`. -/
abbrev RawRecord := String × List Nat

/-- `pipe_stdin(proc_stdin)` (claude-mitm.py lines 46–79), as a function
from the non-empty chunks read off the proxy's stdin and the teardown
path to the sequence of `log` calls it makes and the bytes it writes to
the child's stdin.  The `finally:` block logs a non-empty remaining
buffer (and closes the child's stdin, which transfers no bytes). -/
def pipeStdinRun (chunks : List (List Nat)) (td : Teardown) :
    List RawRecord × List Nat :=
  let (fwd, recs, buf) := forwardLoop chunks []
  let loopRecs := recs.map (fun p => (("STDIN" : String), p))
  let errRecs : List RawRecord :=
    match td with
    | .err msg => [("STDIN_ERROR", msg)]
    | _ => []
  let flushRecs : List RawRecord := if buf.isEmpty then [] else [("STDIN", buf)]
  (loopRecs ++ errRecs ++ flushRecs, fwd)

/-- `pipe_output(proc_stream, out_stream, direction)` (claude-mitm.py
lines 82–111), as a function from the direction tag, the non-empty
chunks read off the child's stream, and the teardown path to the `log`
calls made and the bytes written to the proxy's own stdout/stderr.
Note the `finally:` block: a non-empty remaining buffer is both logged
and *written to the output stream a second time* (lines 109–111), on
every teardown path. -/
def pipeOutputRun (direction : String) (chunks : List (List Nat)) (td : Teardown) :
    List RawRecord × List Nat :=
  let (fwd, recs, buf) := forwardLoop chunks []
  let loopRecs := recs.map (fun p => (direction, p))
  let errRecs : List RawRecord :=
    match td with
    | .err msg => [(direction ++ "_ERROR", msg)]
    | _ => []
  let flushRecs : List RawRecord := if buf.isEmpty then [] else [(direction, buf)]
  (loopRecs ++ errRecs ++ flushRecs, fwd ++ (if buf.isEmpty then [] else buf))

/-- One proxied session, as observed at the boundaries the claims talk
about: what each stream delivered (as non-empty read chunks), how each
pipe coroutine's loop ended, the STARTUP payload, and the child's exit
status `proc.returncode`. -/
structure ChildRun where
  stdinChunks : List (List Nat)
  stdinTd : Teardown
  stdoutChunks : List (List Nat)
  stdoutTd : Teardown
  stderrChunks : List (List Nat)
  stderrTd : Teardown
  argsBytes : List Nat
  returncode : Int

/-- The EXIT payload, `f"Return code: {proc.returncode}".encode()`. -/
def exitPayload (returncode : Int) : List Nat :=
  strBytes ("Return code: " ++ toString returncode)

/-- `main()` (claude-mitm.py lines 114–146), as a function from one
session to the full sequence of `log` calls and the proxy's own exit
status: a STARTUP record, the three pipe coroutines' records, one EXIT
record, and `sys.exit(proc.returncode)`.  The three coroutines run
concurrently and their records may interleave in the log; the claims
below only concern per-direction subsequences and the EXIT record, so
this model fixes one arbitrary serialization (stdin, stdout, stderr)
without loss. -/
def runSession (r : ChildRun) : List RawRecord × Int :=
  (("STARTUP", r.argsBytes)
      :: (pipeStdinRun r.stdinChunks r.stdinTd).1
      ++ (pipeOutputRun "STDOUT" r.stdoutChunks r.stdoutTd).1
      ++ (pipeOutputRun "STDERR" r.stderrChunks r.stderrTd).1
      ++ [("EXIT", exitPayload r.returncode)],
    r.returncode)

/-! ## Event traces

For the claim about write-before-log ordering, the pipe coroutines are
embedded a second time with their observable side effects
instrumented: each iteration contributes the destination write followed
by the log calls it triggers, in source order (write on line 61/92,
drain, then `log` on line 71/102 per completed line). -/

/-- One observable side effect of a pipe coroutine: a write of bytes to
the destination stream, or a `log` call with a payload. -/
inductive Ev
  | write (bs : List Nat) : Ev
  | logRec (payload : List Nat) : Ev
  deriving DecidableEq

/-- The read loop of either pipe coroutine, as the sequence of its
observable effects (in the order the source performs them) plus the
final line buffer. -/
def traceLoop : List (List Nat) → List Nat → List Ev × List Nat
  | [], buf => ([], buf)
  | c :: cs, buf =>
    if c.isEmpty then ([], buf)
    else
      let (ls, buf2) := drainLines (buf ++ c)
      let (evs, bufF) := traceLoop cs buf2
      (Ev.write c :: (ls.map Ev.logRec ++ evs), bufF)

/-- The effect trace of `pipe_stdin` on the end-of-stream path: the
loop's effects, then the `finally:` flush log of a non-empty buffer. -/
def stdinTrace (chunks : List (List Nat)) : List Ev :=
  let (evs, buf) := traceLoop chunks []
  evs ++ (if buf.isEmpty then [] else [Ev.logRec buf])

/-- The effect trace of `pipe_output` on the end-of-stream path: the
loop's effects, then the `finally:` block, which logs a non-empty
buffer and then writes it to the output stream again (lines 108–111,
in that source order). -/
def outputTrace (chunks : List (List Nat)) : List Ev :=
  let (evs, buf) := traceLoop chunks []
  evs ++ (if buf.isEmpty then [] else [Ev.logRec buf, Ev.write buf])

/-- The concatenation of all bytes written by the events of a trace. -/
def writtenBytes : List Ev → List Nat
  | [] => []
  | Ev.write bs :: evs => bs ++ writtenBytes evs
  | Ev.logRec _ :: evs => writtenBytes evs

/-- `OkTrace w evs`: every logged payload in `evs` is an infix of the
bytes already written to the destination when the log call happens,
where `w` are the bytes written before the trace starts. -/
def OkTrace : List Nat → List Ev → Prop
  | _, [] => True
  | w, Ev.write bs :: evs => OkTrace (w ++ bs) evs
  | w, Ev.logRec r :: evs => r <:+: w ∧ OkTrace w evs

/-! ## The logging sink

`log(direction, data)` (claude-mitm.py lines 18–43).  The payload bytes
are decoded with `data.decode("utf-8", errors="replace")` — which never
raises, so the `except Exception: text = repr(data)` fallback is dead
code and the decode is modelled as a total function — and the decoded
text is tentatively parsed with `json.loads`; on success the entry gets
`type = "json"` and the parsed value, on failure `type = "text"` and
the raw text.

The JSON value type mirrors what `json.loads` can return.  Python
lists and dicts are modelled by the mutual types `JArr` / `JObj` (a
dict is an insertion-ordered key/value sequence).  A numeric literal is
kept exactly, as mantissa × 10^exp10 (Python's int/float distinction
is not preserved; no claim depends on it). -/

mutual
inductive JVal where
  | str (s : String) : JVal
  | num (mantissa : Int) (exp10 : Int) : JVal
  | bool (b : Bool) : JVal
  | null : JVal
  | arr (items : JArr) : JVal
  | obj (fields : JObj) : JVal
inductive JArr where
  | nil : JArr
  | cons (hd : JVal) (tl : JArr) : JArr
inductive JObj where
  | nil : JObj
  | cons (key : String) (val : JVal) (tl : JObj) : JObj
end

/-- U+FFFD, the replacement character used by `errors="replace"`. -/
def replacementChar : Char := Char.ofNat 0xFFFD

/-- Is `b` a UTF-8 continuation byte (`0x80–0xBF`)? -/
def isCont (b : Nat) : Bool := 0x80 ≤ b && b < 0xC0

/-- Lossy UTF-8 decoding, `data.decode("utf-8", errors="replace")`:
well-formed sequences (overlongs and surrogates rejected, as CPython
rejects them) decode to their code point; a rejected byte becomes one
U+FFFD and decoding resumes at the next byte.  (CPython coalesces a
truncated multi-byte prefix into a single U+FFFD where this model may
emit one per byte; no claim depends on the replacement granularity.)
`fuel` bounds the iterations; every iteration consumes at least one
byte, so the byte count suffices. -/
def utf8DecodeAux : Nat → List Nat → List Char
  | 0, _ => []
  | _ + 1, [] => []
  | fuel + 1, b :: bs =>
    if b < 0x80 then Char.ofNat b :: utf8DecodeAux fuel bs
    else if b < 0xC2 then replacementChar :: utf8DecodeAux fuel bs
    else if b < 0xE0 then
      match bs with
      | b2 :: bs2 =>
        if isCont b2 then
          Char.ofNat ((b - 0xC0) * 0x40 + (b2 - 0x80)) :: utf8DecodeAux fuel bs2
        else replacementChar :: utf8DecodeAux fuel bs
      | [] => [replacementChar]
    else if b < 0xF0 then
      match bs with
      | b2 :: b3 :: bs3 =>
        if (if b = 0xE0 then 0xA0 ≤ b2 && b2 < 0xC0
            else if b = 0xED then 0x80 ≤ b2 && b2 < 0xA0
            else isCont b2) && isCont b3 then
          Char.ofNat ((b - 0xE0) * 0x1000 + (b2 - 0x80) * 0x40 + (b3 - 0x80))
            :: utf8DecodeAux fuel bs3
        else replacementChar :: utf8DecodeAux fuel bs
      | _ => replacementChar :: utf8DecodeAux fuel bs
    else if b < 0xF5 then
      match bs with
      | b2 :: b3 :: b4 :: bs4 =>
        if (if b = 0xF0 then 0x90 ≤ b2 && b2 < 0xC0
            else if b = 0xF4 then 0x80 ≤ b2 && b2 < 0x90
            else isCont b2) && isCont b3 && isCont b4 then
          Char.ofNat ((b - 0xF0) * 0x40000 + (b2 - 0x80) * 0x1000
              + (b3 - 0x80) * 0x40 + (b4 - 0x80))
            :: utf8DecodeAux fuel bs4
        else replacementChar :: utf8DecodeAux fuel bs
      | _ => replacementChar :: utf8DecodeAux fuel bs
    else replacementChar :: utf8DecodeAux fuel bs

/-- `data.decode("utf-8", errors="replace")`: total, never raises. -/
def utf8DecodeReplace (data : List Nat) : String :=
  String.mk (utf8DecodeAux data.length data)

/-- The characters `json.loads` treats as whitespace. -/
def isJsonWs (c : Char) : Bool := c = ' ' || c = '\t' || c = '\n' || c = Char.ofNat 13

/-- Drop leading JSON whitespace. -/
def skipWs : List Char → List Char
  | [] => []
  | c :: cs => if isJsonWs c then skipWs cs else c :: cs

/-- Is `c` an ASCII decimal digit? -/
def isDigitCh (c : Char) : Bool := '0' ≤ c && c ≤ '9'

/-- Split a maximal run of leading decimal digits off a char list. -/
def takeDigits : List Char → List Char × List Char
  | [] => ([], [])
  | c :: cs =>
    if isDigitCh c then
      let (ds, r) := takeDigits cs
      (c :: ds, r)
    else ([], c :: cs)

/-- The number denoted by a digit run, most significant digit first. -/
def digitsToNat (ds : List Char) : Nat :=
  ds.foldl (fun a c => 10 * a + (c.toNat - 48)) 0

/-- The exponent part of a JSON number literal (empty, or `e`/`E`, an
optional sign and at least one digit), applied to an already-parsed
mantissa and base exponent. -/
def parseExpPart (mant : Int) (exp0 : Int) (cs : List Char) : Option (JVal × List Char) :=
  match cs with
  | c :: t =>
    if c = 'e' || c = 'E' then
      let st : Int × List Char :=
        match t with
        | '+' :: u => (1, u)
        | '-' :: u => (-1, u)
        | _ => (1, t)
      match st.2 with
      | d :: _ =>
        if isDigitCh d then
          let (eds, t3) := takeDigits st.2
          some (JVal.num mant (exp0 + st.1 * (digitsToNat eds : Int)), t3)
        else none
      | [] => none
    else some (JVal.num mant exp0, cs)
  | [] => some (JVal.num mant exp0, [])

/-- The fractional part of a JSON number literal (empty, or `.` and at
least one digit), given the sign and integer part. -/
def parseFracPart (sign : Int) (intPart : Nat) (cs : List Char) : Option (JVal × List Char) :=
  match cs with
  | '.' :: t =>
    match t with
    | d :: _ =>
      if isDigitCh d then
        let (fds, t2) := takeDigits t
        parseExpPart (sign * ((intPart * 10 ^ fds.length + digitsToNat fds : Nat) : Int))
          (-(fds.length : Int)) t2
      else none
    | [] => none
  | _ => parseExpPart (sign * (intPart : Int)) 0 cs

/-- A JSON number literal: optional minus, an integer part with no
leading zero, optional fraction, optional exponent — the grammar
`json.loads` accepts for numbers.  (CPython's non-standard
`NaN`/`Infinity` extension is not modelled; no claim depends on it.) -/
def parseNumber (cs : List Char) : Option (JVal × List Char) :=
  let sc : Int × List Char :=
    match cs with
    | '-' :: t => (-1, t)
    | _ => (1, cs)
  match sc.2 with
  | d :: _ =>
    if isDigitCh d then
      let (ds, cs2) := takeDigits sc.2
      if 1 < ds.length && ds.headD 'x' = '0' then none
      else parseFracPart sc.1 (digitsToNat ds) cs2
    else none
  | [] => none

/-- The value of one hex digit, if `c` is one. -/
def hexVal (c : Char) : Option Nat :=
  if '0' ≤ c && c ≤ '9' then some (c.toNat - 48)
  else if 'a' ≤ c && c ≤ 'f' then some (c.toNat - 87)
  else if 'A' ≤ c && c ≤ 'F' then some (c.toNat - 55)
  else none

/-- Four hex digits, as in a `\uXXXX` escape. -/
def parseHex4 (cs : List Char) : Option (Nat × List Char) :=
  match cs with
  | a :: b :: c :: d :: rest =>
    match hexVal a, hexVal b, hexVal c, hexVal d with
    | some x, some y, some z, some w => some (((x * 16 + y) * 16 + z) * 16 + w, rest)
    | _, _, _, _ => none
  | _ => none

/-- A single-character escape after a backslash. -/
def escChar (e : Char) : Option Char :=
  if e = '"' then some '"'
  else if e = '\\' then some '\\'
  else if e = '/' then some '/'
  else if e = 'b' then some (Char.ofNat 8)
  else if e = 'f' then some (Char.ofNat 12)
  else if e = 'n' then some '\n'
  else if e = 'r' then some (Char.ofNat 13)
  else if e = 't' then some '\t'
  else none

/-- A `\uXXXX` escape opening a surrogate pair: if `n` is a high
surrogate and the input continues with a low-surrogate `\uXXXX`
escape, the combined code point and the rest of the input. -/
def parseSurrogatePair (n : Nat) (cs : List Char) : Option (Char × List Char) :=
  if 0xD800 ≤ n && n < 0xDC00 then
    match cs with
    | '\\' :: 'u' :: cs4 =>
      match parseHex4 cs4 with
      | some (n2, cs5) =>
        if 0xDC00 ≤ n2 && n2 < 0xE000 then
          some (Char.ofNat (0x10000 + (n - 0xD800) * 0x400 + (n2 - 0xDC00)), cs5)
        else none
      | none => none
    | _ => none
  else none

/-- The body of a JSON string literal, after the opening quote: returns
the content and the input after the closing quote.  Raw control
characters are rejected (the decoder's default strict mode); escape
sequences are those of the JSON grammar; surrogate pairs written as two
`\uXXXX` escapes combine.  (A lone surrogate escape produces a Python
`str` Lean's `Char` cannot represent; it is mapped through `Char.ofNat`
here, and no claim depends on it.)  `fuel` bounds the iterations; every
iteration consumes at least one character. -/
def parseStringBody : Nat → List Char → Option (List Char × List Char)
  | 0, _ => none
  | _ + 1, [] => none
  | fuel + 1, c :: cs =>
    if c = '"' then some ([], cs)
    else if c = '\\' then
      match cs with
      | [] => none
      | e :: cs2 =>
        if e = 'u' then
          match parseHex4 cs2 with
          | none => none
          | some (n, cs3) =>
            match parseSurrogatePair n cs3 with
            | some (ch, cs4) =>
              (parseStringBody fuel cs4).map (fun p => (ch :: p.1, p.2))
            | none =>
              (parseStringBody fuel cs3).map (fun p => (Char.ofNat n :: p.1, p.2))
        else
          match escChar e with
          | some ch => (parseStringBody fuel cs2).map (fun p => (ch :: p.1, p.2))
          | none => none
    else if c.toNat < 0x20 then none
    else (parseStringBody fuel cs).map (fun p => (c :: p.1, p.2))

/-- `true`, `false`, `null` keywords. -/
def parseLit (lit : List Char) (cs : List Char) : Option (List Char) :=
  if lit.isPrefixOf cs then some (cs.drop lit.length) else none

/-- The `\x7b` character. -/
def lbraceCh : Char := Char.ofNat 123

/-- The `\x7d` character. -/
def rbraceCh : Char := Char.ofNat 125

mutual
/-- One JSON value (with surrounding whitespace allowed before it), the
grammar `json.loads` accepts.  `fuel` bounds the recursion depth; the
top-level entry point supplies more than the input length, which is
ample since every recursive step consumes input. -/
def parseValue : Nat → List Char → Option (JVal × List Char)
  | 0, _ => none
  | fuel + 1, cs0 =>
    match skipWs cs0 with
    | [] => none
    | c :: rest =>
      if c = lbraceCh then
        match skipWs rest with
        | c2 :: r2 =>
          if c2 = rbraceCh then some (JVal.obj JObj.nil, r2)
          else
            match parseObjItems fuel rest with
            | some (fields, r) => some (JVal.obj fields, r)
            | none => none
        | [] => none
      else if c = '[' then
        match skipWs rest with
        | c2 :: r2 =>
          if c2 = ']' then some (JVal.arr JArr.nil, r2)
          else
            match parseArrItems fuel rest with
            | some (items, r) => some (JVal.arr items, r)
            | none => none
        | [] => none
      else if c = '"' then
        match parseStringBody (rest.length + 1) rest with
        | some (body, r) => some (JVal.str (String.mk body), r)
        | none => none
      else if c = 't' then (parseLit ['r', 'u', 'e'] rest).map (fun r => (JVal.bool true, r))
      else if c = 'f' then (parseLit ['a', 'l', 's', 'e'] rest).map (fun r => (JVal.bool false, r))
      else if c = 'n' then (parseLit ['u', 'l', 'l'] rest).map (fun r => (JVal.null, r))
      else parseNumber (c :: rest)

/-- A non-empty comma-separated element list followed by `]`. -/
def parseArrItems : Nat → List Char → Option (JArr × List Char)
  | 0, _ => none
  | fuel + 1, cs =>
    match parseValue fuel cs with
    | none => none
    | some (v, r) =>
      match skipWs r with
      | c :: r2 =>
        if c = ',' then
          match parseArrItems fuel r2 with
          | some (items, r3) => some (JArr.cons v items, r3)
          | none => none
        else if c = ']' then some (JArr.cons v JArr.nil, r2)
        else none
      | [] => none

/-- A non-empty comma-separated `"key": value` member list followed by
the closing brace. -/
def parseObjItems : Nat → List Char → Option (JObj × List Char)
  | 0, _ => none
  | fuel + 1, cs =>
    match skipWs cs with
    | c :: rest =>
      if c = '"' then
        match parseStringBody (rest.length + 1) rest with
        | some (key, r) =>
          match skipWs r with
          | c2 :: r2 =>
            if c2 = ':' then
              match parseValue fuel r2 with
              | none => none
              | some (v, r3) =>
                match skipWs r3 with
                | c3 :: r4 =>
                  if c3 = ',' then
                    match parseObjItems fuel r4 with
                    | some (fields, r5) => some (JObj.cons (String.mk key) v fields, r5)
                    | none => none
                  else if c3 = rbraceCh then some (JObj.cons (String.mk key) v JObj.nil, r4)
                  else none
                | [] => none
            else none
          | [] => none
        | none => none
      else none
    | [] => none
end

/-- `json.loads(s)`: parse one value and require only whitespace after
it. -/
def parseJson (s : String) : Option JVal :=
  match parseValue (2 * s.length + 8) s.data with
  | some (v, rest) => if (skipWs rest).isEmpty then some v else none
  | none => none

/-- One serialized log line, as built by `log` (claude-mitm.py lines
29–41): `time` and `fd` always present, and either the `json` or the
`text` field, selected by `type`. -/
structure LogEntry where
  time : String
  fd : String
  type : String
  json : Option JVal
  text : Option String

/-- `log(direction, data)` (claude-mitm.py lines 18–43), with the
timestamp `datetime.now().isoformat(...)` passed in as a parameter
(the only non-deterministic input). -/
def log (time direction : String) (data : List Nat) : LogEntry :=
  let text := utf8DecodeReplace data
  match parseJson text with
  | some v => { time := time, fd := direction, type := "json", json := some v, text := none }
  | none => { time := time, fd := direction, type := "text", json := none, text := some text }

/-! ## The anonymizer (src/tools/anonymize_uuids.py)

The mutable `mapping: Dict[str, str]` and `counter = {'count': n}` that
the Python code threads through every call are modelled as one explicit
state value: the mapping as an association list (new entries consed to
the front; a key is never inserted twice, so lookup order is
irrelevant) and the counter as a `Nat`. -/

/-- The `(mapping, counter)` state shared by one file-processing run. -/
abbrev AnonState := List (String × String) × Nat

/-- Base-10 digits of `n`, least significant first, always non-empty.
`fuel` bounds the iterations; `n + 1` always suffices. -/
def decDigitsAux : Nat → Nat → List Nat
  | 0, _ => []
  | fuel + 1, n => if n < 10 then [n] else n % 10 :: decDigitsAux fuel (n / 10)

/-- Base-10 digits of `n`, least significant first. -/
def decDigits (n : Nat) : List Nat := decDigitsAux (n + 1) n

/-- The number denoted by a least-significant-first digit list. -/
def valOf : List Nat → Nat
  | [] => 0
  | d :: ds => d + 10 * valOf ds

/-- The character of one decimal digit. -/
def digitChar (d : Nat) : Char := Char.ofNat (48 + d)

/-- `f"{n:012d}"`: the decimal digits of `n`, most significant first,
left-padded with zeros to at least 12 characters. -/
def seqChars (n : Nat) : List Char :=
  let ds := (decDigits n).reverse.map digitChar
  List.replicate (12 - ds.length) (digitChar 0) ++ ds

/-- The value read back off a digit string (a left inverse of
`seqChars`, used to prove generated identifiers distinct). -/
def charsVal (cs : List Char) : Nat :=
  cs.foldl (fun a c => 10 * a + (c.toNat - 48)) 0

/-- The generated identifier for sequence number `n`:
`f"{prefix}-0000-0000-0000-{n:012d}"` (anonymize_uuids.py line 60). -/
def renderAnon (prefixStr : String) (n : Nat) : String :=
  prefixStr ++ "-0000-0000-0000-" ++ String.mk (seqChars n)

/-- `anonymize_uuid(uuid, mapping, prefix, counter)` (anonymize_uuids.py
lines 41–63): look the lowercased UUID up in the mapping; if absent,
bump the counter, render a fresh identifier, and record it. -/
def anonymize_uuid (uuid : String) (prefixStr : String) (st : AnonState) :
    String × AnonState :=
  match st.1.lookup uuid.toLower with
  | some v => (v, st)
  | none =>
    (renderAnon prefixStr (st.2 + 1),
      ((uuid.toLower, renderAnon prefixStr (st.2 + 1)) :: st.1, st.2 + 1))

/-- The sequence of `anonymize_uuid` calls one run makes (one per UUID
occurrence encountered, in encounter order), threading the shared
state; returns each call's result. -/
def processUuids (prefixStr : String) : List String → AnonState → List String × AnonState
  | [], st => ([], st)
  | u :: us, st =>
    let (r, st1) := anonymize_uuid u prefixStr st
    let (rs, st2) := processUuids prefixStr us st1
    (r :: rs, st2)

/-- The per-occurrence results of one run started from the empty
mapping and zero counter, as `anonymize_jsonl_file` does. -/
def anonResults (prefixStr : String) (us : List String) : List String :=
  (processUuids prefixStr us ([], 0)).1

/-- The invariant a run's state maintains: the mapping's values are
exactly the rendered identifiers for 1..counter, newest first.  (Used
to prove the mapping one-to-one.) -/
def mapInv (prefixStr : String) (st : AnonState) : Prop :=
  st.1.map Prod.snd = ((List.range' 1 st.2).reverse).map (renderAnon prefixStr)

/-- Is `c` one of the characters `[0-9a-fA-F]` matched by the pattern's
hex classes under `re.IGNORECASE`? -/
def isHexCh (c : Char) : Bool :=
  ('0' ≤ c && c ≤ '9') || ('a' ≤ c && c ≤ 'f') || ('A' ≤ c && c ≤ 'F')

/-- An ASCII regex word character (`\w`), for the `\b` boundary checks.
(Python's `\b` on `str` patterns also counts non-ASCII letters as word
characters; the UUID pattern itself is pure ASCII and no claim depends
on non-ASCII neighbours.) -/
def isWordChar (c : Char) : Bool :=
  ('0' ≤ c && c ≤ '9') || ('a' ≤ c && c ≤ 'z') || ('A' ≤ c && c ≤ 'Z') || c = '_'

/-- Exactly `n` hex digits off the front of the input. -/
def takeHex : Nat → List Char → Option (List Char × List Char)
  | 0, cs => some ([], cs)
  | _ + 1, [] => none
  | n + 1, c :: cs =>
    if isHexCh c then
      match takeHex n cs with
      | some (h, r) => some (c :: h, r)
      | none => none
    else none

/-- A literal `-`. -/
def expectDash : List Char → Option (List Char)
  | c :: cs => if c = '-' then some cs else none
  | [] => none

/-- A match of `UUID_PATTERN` (8-4-4-4-12 hex groups, case-insensitive)
anchored at the current position, including the trailing `\b` check;
the leading `\b` is checked by the caller, which knows the previous
character.  Returns the matched text and the rest of the input. -/
def matchUuidAt (cs : List Char) : Option (List Char × List Char) := do
  let (h1, r1) ← takeHex 8 cs
  let r2 ← expectDash r1
  let (h2, r3) ← takeHex 4 r2
  let r4 ← expectDash r3
  let (h3, r5) ← takeHex 4 r4
  let r6 ← expectDash r5
  let (h4, r7) ← takeHex 4 r6
  let r8 ← expectDash r7
  let (h5, r9) ← takeHex 12 r8
  match r9 with
  | c :: _ =>
    if isWordChar c then none
    else some (h1 ++ '-' :: h2 ++ '-' :: h3 ++ '-' :: h4 ++ '-' :: h5, r9)
  | [] => some (h1 ++ '-' :: h2 ++ '-' :: h3 ++ '-' :: h4 ++ '-' :: h5, r9)

/-- `UUID_PATTERN.sub(lambda m: anonymize_uuid(m.group(0), ...), value)`
over the characters of `value`: scan left to right; at each position
whose predecessor is not a word character, try the pattern; on a match,
substitute that occurrence's anonymized identifier and resume after the
match (non-overlapping, as `re.sub` does), otherwise copy one character.
`fuel` bounds the iterations; every step consumes at least one
character. -/
def uuidSubChars (prefixStr : String) :
    Nat → Bool → List Char → AnonState → List Char × AnonState
  | 0, _, cs, st => (cs, st)
  | _ + 1, _, [], st => ([], st)
  | fuel + 1, prevWord, c :: cs, st =>
    match (if prevWord then none else matchUuidAt (c :: cs)) with
    | some (m, rest) =>
      let (repl, st1) := anonymize_uuid (String.mk m) prefixStr st
      let (tailChars, st2) := uuidSubChars prefixStr fuel true rest st1
      (repl.data ++ tailChars, st2)
    | none =>
      let (tailChars, st1) := uuidSubChars prefixStr fuel (isWordChar c) cs st
      (c :: tailChars, st1)

/-- The string branch of `anonymize_value`: replace every UUID
occurrence in `s` through the shared mapping. -/
def uuidSub (prefixStr : String) (s : String) (st : AnonState) : String × AnonState :=
  let (cs, st1) := uuidSubChars prefixStr s.data.length false s.data st
  (String.mk cs, st1)

mutual
/-- `anonymize_value(value, mapping, prefix, counter)`
(anonymize_uuids.py lines 66–91): strings get `UUID_PATTERN.sub`;
dicts keep their keys and recurse on the values (the comprehension
`{k: anonymize_value(v, ...) for k, v in value.items()}`); lists
recurse elementwise; numbers, booleans and null return as-is. -/
def anonymize_value (prefixStr : String) : JVal → AnonState → JVal × AnonState
  | JVal.str s, st =>
    let (s1, st1) := uuidSub prefixStr s st
    (JVal.str s1, st1)
  | JVal.obj fs, st =>
    let (fs1, st1) := anonymizeObj prefixStr fs st
    (JVal.obj fs1, st1)
  | JVal.arr xs, st =>
    let (xs1, st1) := anonymizeArr prefixStr xs st
    (JVal.arr xs1, st1)
  | JVal.num m e, st => (JVal.num m e, st)
  | JVal.bool b, st => (JVal.bool b, st)
  | JVal.null, st => (JVal.null, st)

/-- The list comprehension branch of `anonymize_value`. -/
def anonymizeArr (prefixStr : String) : JArr → AnonState → JArr × AnonState
  | JArr.nil, st => (JArr.nil, st)
  | JArr.cons x xs, st =>
    let (x1, st1) := anonymize_value prefixStr x st
    let (xs1, st2) := anonymizeArr prefixStr xs st1
    (JArr.cons x1 xs1, st2)

/-- The dict comprehension branch of `anonymize_value`: keys are passed
through verbatim, only the values recurse. -/
def anonymizeObj (prefixStr : String) : JObj → AnonState → JObj × AnonState
  | JObj.nil, st => (JObj.nil, st)
  | JObj.cons k v fs, st =>
    let (v1, st1) := anonymize_value prefixStr v st
    let (fs1, st2) := anonymizeObj prefixStr fs st1
    (JObj.cons k v1 fs1, st2)
end

mutual
/-- The shape of a JSON value: the value with every string content
erased.  Two values have the same shape exactly when they agree on
everything except the contents of string *values* — in particular on
all numbers, booleans, nulls, array structure and dictionary keys. -/
def shapeVal : JVal → JVal
  | JVal.str _ => JVal.str ""
  | JVal.obj fs => JVal.obj (shapeObj fs)
  | JVal.arr xs => JVal.arr (shapeArr xs)
  | JVal.num m e => JVal.num m e
  | JVal.bool b => JVal.bool b
  | JVal.null => JVal.null

/-- Elementwise shape of an array. -/
def shapeArr : JArr → JArr
  | JArr.nil => JArr.nil
  | JArr.cons x xs => JArr.cons (shapeVal x) (shapeArr xs)

/-- Shape of a dict: keys kept verbatim, values' shapes. -/
def shapeObj : JObj → JObj
  | JObj.nil => JObj.nil
  | JObj.cons k v fs => JObj.cons k (shapeVal v) (shapeObj fs)
end

/-- The keys of a dict, in order. -/
def objKeys : JObj → List String
  | JObj.nil => []
  | JObj.cons k _ fs => k :: objKeys fs

/-! ## Properties of the line reassembly loop -/

theorem splitNl_cons (b : Nat) (bs : List Nat) :
    splitNl (b :: bs) = if b = nlByte then [] :: splitNl bs
      else match splitNl bs with
           | [] => [[b]]
           | p :: ps => (b :: p) :: ps := rfl

theorem breakNl_cons (b : Nat) (bs : List Nat) :
    breakNl (b :: bs) = if b = nlByte then some ([], bs)
      else match breakNl bs with
           | none => none
           | some (l, r) => some (b :: l, r) := rfl

theorem splitNl_ne_nil (bs : List Nat) : splitNl bs ≠ [] := by
  cases bs with
  | nil => simp [splitNl]
  | cons b bs =>
    rw [splitNl_cons]
    split
    · simp
    · split <;> simp

theorem breakNl_none_not_mem : ∀ bs : List Nat, breakNl bs = none → nlByte ∉ bs := by
  intro bs
  induction bs with
  | nil => simp
  | cons b bs ih =>
    intro h
    rw [breakNl_cons] at h
    split at h
    · exact absurd h (by simp)
    · rename_i hb
      simp only [List.mem_cons, not_or]
      refine ⟨fun hh => hb hh.symm, ?_⟩
      apply ih
      cases hbk : breakNl bs with
      | none => rfl
      | some p => obtain ⟨l, r⟩ := p; rw [hbk] at h; exact absurd h (by simp)

theorem splitNl_noNl : ∀ bs : List Nat, nlByte ∉ bs → splitNl bs = [bs] := by
  intro bs
  induction bs with
  | nil => intro _; simp [splitNl]
  | cons b bs ih =>
    intro h
    simp only [List.mem_cons, not_or] at h
    have hb : ¬ b = nlByte := fun hh => h.1 hh.symm
    rw [splitNl_cons, if_neg hb, ih h.2]

theorem breakNl_some : ∀ bs l r : List Nat, breakNl bs = some (l, r) →
    bs = l ++ nlByte :: r ∧ nlByte ∉ l := by
  intro bs
  induction bs with
  | nil => intro l r h; simp [breakNl] at h
  | cons b bs ih =>
    intro l r h
    rw [breakNl_cons] at h
    split at h
    · rename_i hb
      injection h with h'
      cases h'
      subst hb
      simp
    · rename_i hb
      cases hbk : breakNl bs with
      | none => rw [hbk] at h; exact absurd h (by simp)
      | some p =>
        obtain ⟨l0, r0⟩ := p
        rw [hbk] at h
        injection h with h'
        have h1 : b :: l0 = l := congrArg Prod.fst h'
        have h2 : r0 = r := congrArg Prod.snd h'
        subst h1
        subst h2
        obtain ⟨hbs, hnl⟩ := ih l0 r0 hbk
        refine ⟨by rw [hbs]; rfl, ?_⟩
        simp only [List.mem_cons, not_or]
        exact ⟨fun hh => hb hh.symm, hnl⟩

theorem splitNl_split : ∀ l s : List Nat, nlByte ∉ l →
    splitNl (l ++ nlByte :: s) = l :: splitNl s := by
  intro l s
  induction l with
  | nil => intro _; simp [splitNl]
  | cons x l ih =>
    intro h
    simp only [List.mem_cons, not_or] at h
    have hx : ¬ x = nlByte := fun hh => h.1 hh.symm
    rw [List.cons_append, splitNl_cons, if_neg hx, ih h.2]

theorem drainLinesFuel_spec (fuel : Nat) :
    ∀ buf t : List Nat, buf.length ≤ fuel →
      (drainLinesFuel fuel buf).1 ++ nonEmptyLines ((drainLinesFuel fuel buf).2 ++ t)
        = nonEmptyLines (buf ++ t) := by
  induction fuel with
  | zero =>
    intro buf t h
    have : buf = [] := List.length_eq_zero.mp (Nat.le_zero.mp h)
    subst this
    simp [drainLinesFuel]
  | succ fuel ih =>
    intro buf t h
    cases hbk : breakNl buf with
    | none => simp [drainLinesFuel, hbk]
    | some p =>
      obtain ⟨l, r⟩ := p
      obtain ⟨hbuf, hnl⟩ := breakNl_some buf l r hbk
      have hr : r.length ≤ fuel := by
        have := congrArg List.length hbuf
        simp [List.length_append] at this
        omega
      have key := ih r t hr
      rcases hdrain : drainLinesFuel fuel r with ⟨ls, rem⟩
      rw [hdrain] at key
      simp only at key
      have hsplit : nonEmptyLines ((l ++ nlByte :: r) ++ t) =
          (if l.isEmpty then [] else [l]) ++ nonEmptyLines (r ++ t) := by
        rw [List.append_assoc, List.cons_append]
        unfold nonEmptyLines
        rw [splitNl_split l (r ++ t) hnl, List.filter_cons]
        cases hl : l.isEmpty <;> simp [hl]
      simp only [drainLinesFuel, hbk, hdrain]
      rw [hbuf, hsplit, ← key]
      cases hl : l.isEmpty <;> simp [hl]

theorem drainLinesFuel_noNl (fuel : Nat) :
    ∀ buf : List Nat, buf.length ≤ fuel → nlByte ∉ (drainLinesFuel fuel buf).2 := by
  induction fuel with
  | zero =>
    intro buf h
    have : buf = [] := List.length_eq_zero.mp (Nat.le_zero.mp h)
    subst this
    simp [drainLinesFuel]
  | succ fuel ih =>
    intro buf h
    cases hbk : breakNl buf with
    | none =>
      simp only [drainLinesFuel, hbk]
      exact breakNl_none_not_mem buf hbk
    | some p =>
      obtain ⟨l, r⟩ := p
      obtain ⟨hbuf, _⟩ := breakNl_some buf l r hbk
      have hr : r.length ≤ fuel := by
        have := congrArg List.length hbuf
        simp [List.length_append] at this
        omega
      rcases hdrain : drainLinesFuel fuel r with ⟨ls, rem⟩
      simp only [drainLinesFuel, hbk, hdrain]
      have := ih r hr
      rw [hdrain] at this
      exact this

theorem drainLinesFuel_mem_infix (fuel : Nat) :
    ∀ buf l : List Nat, l ∈ (drainLinesFuel fuel buf).1 → l <:+: buf := by
  induction fuel with
  | zero => intro buf l h; simp [drainLinesFuel] at h
  | succ fuel ih =>
    intro buf l h
    cases hbk : breakNl buf with
    | none => simp [drainLinesFuel, hbk] at h
    | some p =>
      obtain ⟨l0, r⟩ := p
      obtain ⟨hbuf, _⟩ := breakNl_some buf l0 r hbk
      rcases hdrain : drainLinesFuel fuel r with ⟨ls, rem⟩
      simp only [drainLinesFuel, hbk, hdrain] at h
      have hr : r <:+: buf := by
        rw [hbuf]
        exact ((List.suffix_cons nlByte r).trans (List.suffix_append l0 _)).isInfix
      have hl0 : l0 <:+: buf := by
        rw [hbuf]
        exact (List.prefix_append l0 _).isInfix
      have ihr : ∀ x ∈ ls, x <:+: r := by
        intro x hx
        have := ih r x
        rw [hdrain] at this
        exact this hx
      by_cases he : l0.isEmpty
      · rw [if_pos he] at h
        exact (ihr l h).trans hr
      · rw [if_neg he] at h
        rcases List.mem_cons.mp h with rfl | h
        · exact hl0
        · exact (ihr l h).trans hr

theorem drainLinesFuel_rem_suffix (fuel : Nat) :
    ∀ buf : List Nat, (drainLinesFuel fuel buf).2 <:+ buf := by
  induction fuel with
  | zero => intro buf; simp [drainLinesFuel]
  | succ fuel ih =>
    intro buf
    cases hbk : breakNl buf with
    | none => simp [drainLinesFuel, hbk]
    | some p =>
      obtain ⟨l0, r⟩ := p
      obtain ⟨hbuf, _⟩ := breakNl_some buf l0 r hbk
      rcases hdrain : drainLinesFuel fuel r with ⟨ls, rem⟩
      simp only [drainLinesFuel, hbk, hdrain]
      have hrec := ih r
      rw [hdrain] at hrec
      refine hrec.trans ?_
      rw [hbuf]
      exact (List.suffix_cons nlByte r).trans (List.suffix_append l0 _)

theorem drainLines_spec (buf t : List Nat) :
    (drainLines buf).1 ++ nonEmptyLines ((drainLines buf).2 ++ t) = nonEmptyLines (buf ++ t) :=
  drainLinesFuel_spec buf.length buf t (Nat.le_refl _)

theorem drainLines_noNl (buf : List Nat) : nlByte ∉ (drainLines buf).2 :=
  drainLinesFuel_noNl buf.length buf (Nat.le_refl _)

/-! ## Properties of the forwarding read loop -/

theorem forwardLoop_fwd : ∀ (chunks : List (List Nat)) (buf : List Nat),
    (∀ c ∈ chunks, c ≠ []) → (forwardLoop chunks buf).1 = chunks.flatten := by
  intro chunks
  induction chunks with
  | nil => intro buf _; simp [forwardLoop]
  | cons c cs ih =>
    intro buf h
    have hc : ¬ c.isEmpty = true := by
      simp only [List.isEmpty_iff]
      exact h c (List.mem_cons_self c cs)
    rcases hd : drainLines (buf ++ c) with ⟨ls, buf2⟩
    rcases hf : forwardLoop cs buf2 with ⟨fwd, recs, bufF⟩
    simp only [forwardLoop, hd, hf, if_neg hc]
    have := ih buf2 (fun x hx => h x (List.mem_cons_of_mem c hx))
    rw [hf] at this
    simp only at this
    simp [this]

theorem forwardLoop_recs : ∀ (chunks : List (List Nat)) (buf : List Nat),
    nlByte ∉ buf → (∀ c ∈ chunks, c ≠ []) →
    (forwardLoop chunks buf).2.1
        ++ (if (forwardLoop chunks buf).2.2.isEmpty then [] else [(forwardLoop chunks buf).2.2])
      = nonEmptyLines (buf ++ chunks.flatten) := by
  intro chunks
  induction chunks with
  | nil =>
    intro buf hb _
    simp only [forwardLoop, List.flatten_nil, List.append_nil, List.nil_append]
    unfold nonEmptyLines
    rw [splitNl_noNl buf hb, List.filter_cons]
    cases hbe : buf.isEmpty <;> simp [hbe]
  | cons c cs ih =>
    intro buf hb h
    have hc : ¬ c.isEmpty = true := by
      simp only [List.isEmpty_iff]
      exact h c (List.mem_cons_self c cs)
    rcases hd : drainLines (buf ++ c) with ⟨ls, buf2⟩
    rcases hf : forwardLoop cs buf2 with ⟨fwd, recs, bufF⟩
    simp only [forwardLoop, hd, hf, if_neg hc]
    have hb2 : nlByte ∉ buf2 := by
      have := drainLines_noNl (buf ++ c); rw [hd] at this; exact this
    have key := ih buf2 hb2 (fun x hx => h x (List.mem_cons_of_mem c hx))
    rw [hf] at key
    simp only at key
    have hspec := drainLines_spec (buf ++ c) cs.flatten
    rw [hd] at hspec
    simp only at hspec
    simp only [List.flatten_cons, List.append_assoc] at hspec ⊢
    rw [← hspec, ← key]

/-! ## The claims about the proxy's data path -/

/-- C1 (refuted; the spec is the intent, the code a slip): the claim
says the bytes `pipe_output` forwards are exactly the bytes the child
wrote, even when the final chunk does not end in a newline.  But the
`finally:` block of `pipe_output` (claude-mitm.py lines 106–111) writes
the remaining line buffer to the output stream a second time, although
the read loop already forwarded those bytes on line 92: a child that
writes the chunk `b"hi"` and closes its stream has `b"hihi"` forwarded.
This theorem evaluates the embedded code at that failing input. -/
theorem pipe_output_duplicates_trailing_bytes :
    (pipeOutputRun "STDOUT" [[104, 105]] Teardown.eof).2 = [104, 105, 104, 105]
      ∧ (pipeOutputRun "STDOUT" [[104, 105]] Teardown.eof).2
          ≠ ([[104, 105]] : List (List Nat)).flatten := by
  constructor <;> decide

/-- C2: the bytes `pipe_stdin` writes to the child's stdin are exactly
the concatenation of the chunks read from the proxy's stdin, in order
and unmodified, on every teardown path. -/
theorem stdin_passthrough (chunks : List (List Nat)) (td : Teardown)
    (h : ∀ c ∈ chunks, c ≠ []) :
    (pipeStdinRun chunks td).2 = chunks.flatten := by
  rcases hf : forwardLoop chunks [] with ⟨fwd, recs, buf⟩
  have := forwardLoop_fwd chunks [] h
  rw [hf] at this
  simp only at this
  simp [pipeStdinRun, hf, this]

theorem stdin_passthrough_witness :
    (∀ c ∈ ([[104, 10], [97]] : List (List Nat)), c ≠ [])
      ∧ (pipeStdinRun [[104, 10], [97]] Teardown.eof).2 = [104, 10, 97] :=
  ⟨by decide, stdin_passthrough [[104, 10], [97]] Teardown.eof (by decide)⟩

/-- C3: for each direction, the log records emitted on the natural
end-of-stream path are exactly the non-empty newline-delimited lines of
the concatenated byte stream, in order, delimiters stripped, empty
lines discarded, with a non-empty trailing remainder flushed as exactly
one final record — independent of how the stream was chunked. -/
theorem records_are_nonempty_lines (chunks : List (List Nat))
    (h : ∀ c ∈ chunks, c ≠ []) (direction : String) :
    (pipeStdinRun chunks Teardown.eof).1
        = (nonEmptyLines chunks.flatten).map (fun p => (("STDIN" : String), p))
      ∧ (pipeOutputRun direction chunks Teardown.eof).1
        = (nonEmptyLines chunks.flatten).map (fun p => ((direction : String), p)) := by
  rcases hf : forwardLoop chunks [] with ⟨fwd, recs, buf⟩
  have key := forwardLoop_recs chunks [] (by simp) h
  rw [hf] at key
  simp only [List.nil_append] at key
  constructor
  · simp only [pipeStdinRun, hf]
    rw [← key, List.map_append]
    cases hbe : buf.isEmpty <;> simp [hbe]
  · simp only [pipeOutputRun, hf]
    rw [← key, List.map_append]
    cases hbe : buf.isEmpty <;> simp [hbe]

theorem records_are_nonempty_lines_witness :
    (∀ c ∈ ([[108, 105], [110, 101, 49, 10, 108, 105, 110, 101, 50]] : List (List Nat)), c ≠ [])
      ∧ (pipeStdinRun [[108, 105], [110, 101, 49, 10, 108, 105, 110, 101, 50]] Teardown.eof).1
        = (nonEmptyLines ([108, 105, 110, 101, 49, 10, 108, 105, 110, 101, 50])).map
            (fun p => (("STDIN" : String), p)) := by
  refine ⟨by decide, ?_⟩
  have := (records_are_nonempty_lines
    [[108, 105], [110, 101, 49, 10, 108, 105, 110, 101, 50]] (by decide) "STDOUT").1
  simpa using this

/-! ## Session-level record accounting -/

theorem filter_of_tags {l : List RawRecord} {q : RawRecord → Bool}
    (h : ∀ rec ∈ l, q rec = false) : l.filter q = [] := by
  rw [List.filter_eq_nil_iff]
  intro a ha
  simp [h a ha]

theorem pipeStdinRun_filter_nil (chunks : List (List Nat)) (td : Teardown)
    (q : RawRecord → Bool)
    (h1 : ∀ p : List Nat, q ("STDIN", p) = false)
    (h2 : ∀ p : List Nat, q ("STDIN_ERROR", p) = false) :
    (pipeStdinRun chunks td).1.filter q = [] := by
  rcases hf : forwardLoop chunks [] with ⟨fwd, recs, buf⟩
  simp only [pipeStdinRun, hf, List.filter_append]
  have ha : (recs.map (fun p => (("STDIN" : String), p))).filter q = [] := by
    apply filter_of_tags
    intro rec hrec
    obtain ⟨p, _, rfl⟩ := List.mem_map.mp hrec
    exact h1 p
  have hb : (match td with
      | Teardown.err msg => [(("STDIN_ERROR" : String), msg)]
      | _ => ([] : List RawRecord)).filter q = [] := by
    cases td <;> simp [h2]
  have hc : (if buf.isEmpty then ([] : List RawRecord) else [("STDIN", buf)]).filter q = [] := by
    split <;> simp [h1]
  rw [ha, hb, hc]
  rfl

theorem pipeOutputRun_filter_nil (direction : String) (chunks : List (List Nat))
    (td : Teardown) (q : RawRecord → Bool)
    (h1 : ∀ p : List Nat, q (direction, p) = false)
    (h2 : ∀ p : List Nat, q (direction ++ "_ERROR", p) = false) :
    (pipeOutputRun direction chunks td).1.filter q = [] := by
  rcases hf : forwardLoop chunks [] with ⟨fwd, recs, buf⟩
  simp only [pipeOutputRun, hf, List.filter_append]
  have ha : (recs.map (fun p => (direction, p))).filter q = [] := by
    apply filter_of_tags
    intro rec hrec
    obtain ⟨p, _, rfl⟩ := List.mem_map.mp hrec
    exact h1 p
  have hb : (match td with
      | Teardown.err msg => [(direction ++ "_ERROR", msg)]
      | _ => ([] : List RawRecord)).filter q = [] := by
    cases td <;> simp [h2]
  have hc : (if buf.isEmpty then ([] : List RawRecord) else [(direction, buf)]).filter q = [] := by
    split <;> simp [h1]
  rw [ha, hb, hc]
  rfl

theorem pipeOutputRun_err_filter (direction : String) (chunks : List (List Nat))
    (msg : List Nat) (q : RawRecord → Bool)
    (h1 : ∀ p : List Nat, q (direction, p) = false)
    (h2 : q (direction ++ "_ERROR", msg) = true) :
    (pipeOutputRun direction chunks (Teardown.err msg)).1.filter q
      = [(direction ++ "_ERROR", msg)] := by
  rcases hf : forwardLoop chunks [] with ⟨fwd, recs, buf⟩
  simp only [pipeOutputRun, hf, List.filter_append]
  have ha : (recs.map (fun p => (direction, p))).filter q = [] := by
    apply filter_of_tags
    intro rec hrec
    obtain ⟨p, _, rfl⟩ := List.mem_map.mp hrec
    exact h1 p
  have hc : (if buf.isEmpty then ([] : List RawRecord) else [(direction, buf)]).filter q = [] := by
    split <;> simp [h1]
  rw [ha, hc]
  simp [h2]

theorem pipeStdinRun_err_filter (chunks : List (List Nat))
    (msg : List Nat) (q : RawRecord → Bool)
    (h1 : ∀ p : List Nat, q ("STDIN", p) = false)
    (h2 : q ("STDIN_ERROR", msg) = true) :
    (pipeStdinRun chunks (Teardown.err msg)).1.filter q
      = [(("STDIN_ERROR" : String), msg)] := by
  rcases hf : forwardLoop chunks [] with ⟨fwd, recs, buf⟩
  simp only [pipeStdinRun, hf, List.filter_append]
  have ha : (recs.map (fun p => (("STDIN" : String), p))).filter q = [] := by
    apply filter_of_tags
    intro rec hrec
    obtain ⟨p, _, rfl⟩ := List.mem_map.mp hrec
    exact h1 p
  have hc : (if buf.isEmpty then ([] : List RawRecord) else [("STDIN", buf)]).filter q = [] := by
    split <;> simp [h1]
  rw [ha, hc]
  simp [h2]

theorem session_filter (r : ChildRun) (q : RawRecord → Bool)
    (hstart : q ("STARTUP", r.argsBytes) = false)
    (hexit : q ("EXIT", exitPayload r.returncode) = false) :
    (runSession r).1.filter q =
      (pipeStdinRun r.stdinChunks r.stdinTd).1.filter q
        ++ (pipeOutputRun "STDOUT" r.stdoutChunks r.stdoutTd).1.filter q
        ++ (pipeOutputRun "STDERR" r.stderrChunks r.stderrTd).1.filter q := by
  simp [runSession, List.filter_append, List.filter_cons, hstart, hexit]

theorem session_exit_filter (r : ChildRun) :
    (runSession r).1.filter (fun rec => rec.1 == "EXIT")
      = [(("EXIT" : String), exitPayload r.returncode)] := by
  have h1 := pipeStdinRun_filter_nil r.stdinChunks r.stdinTd
    (fun rec => rec.1 == "EXIT") (fun p => rfl) (fun p => rfl)
  have h2 := pipeOutputRun_filter_nil "STDOUT" r.stdoutChunks r.stdoutTd
    (fun rec => rec.1 == "EXIT") (fun p => rfl) (fun p => rfl)
  have h3 := pipeOutputRun_filter_nil "STDERR" r.stderrChunks r.stderrTd
    (fun rec => rec.1 == "EXIT") (fun p => rfl) (fun p => rfl)
  have hs : (("STARTUP" : String) == "EXIT") = false := by decide
  have he : (("EXIT" : String) == "EXIT") = true := by decide
  simp [runSession, List.filter_append, List.filter_cons, h1, h2, h3, hs, he]

/-- C4: whenever the child terminates with exit status `c =
proc.returncode`, the session log contains exactly one EXIT record,
whose payload is the rendering of `c`, and the proxy itself then exits
with status `c` (`sys.exit(proc.returncode)`, claude-mitm.py lines
145–146) — for every value of `c` and any stream activity. -/
theorem exit_record_and_exit_status (r : ChildRun) :
    (runSession r).1.filter (fun rec => rec.1 == "EXIT")
        = [(("EXIT" : String), exitPayload r.returncode)]
      ∧ (runSession r).2 = r.returncode :=
  ⟨session_exit_filter r, rfl⟩

/-- C6: if a read or write on one of the three streams raises, exactly
one record tagged with that direction's error variant (payload = the
failure description) is logged in the whole session, the other two
forwarders' records are unaffected, and the session still produces its
EXIT record and exits with the child's status — stated for each of the
three directions (the `try/except Exception/finally` structure appears
in each forwarder, claude-mitm.py lines 54–79 and 85–111). -/
theorem stream_error_contained (r : ChildRun) (msg : List Nat) :
    (((runSession { r with stdoutTd := Teardown.err msg }).1.filter
          (fun rec => rec.1 == "STDOUT_ERROR")
        = [(("STDOUT_ERROR" : String), msg)])
      ∧ ((runSession { r with stdoutTd := Teardown.err msg }).1.filter
            (fun rec => rec.1 == "STDIN" || rec.1 == "STDIN_ERROR")
          = (runSession r).1.filter (fun rec => rec.1 == "STDIN" || rec.1 == "STDIN_ERROR"))
      ∧ ((runSession { r with stdoutTd := Teardown.err msg }).1.filter
            (fun rec => rec.1 == "STDERR" || rec.1 == "STDERR_ERROR")
          = (runSession r).1.filter (fun rec => rec.1 == "STDERR" || rec.1 == "STDERR_ERROR"))
      ∧ ((runSession { r with stdoutTd := Teardown.err msg }).1.filter
            (fun rec => rec.1 == "EXIT")
          = [(("EXIT" : String), exitPayload r.returncode)])
      ∧ (runSession { r with stdoutTd := Teardown.err msg }).2 = (runSession r).2)
    ∧ (((runSession { r with stdinTd := Teardown.err msg }).1.filter
          (fun rec => rec.1 == "STDIN_ERROR")
        = [(("STDIN_ERROR" : String), msg)])
      ∧ ((runSession { r with stdinTd := Teardown.err msg }).1.filter
            (fun rec => rec.1 == "STDOUT" || rec.1 == "STDOUT_ERROR")
          = (runSession r).1.filter (fun rec => rec.1 == "STDOUT" || rec.1 == "STDOUT_ERROR"))
      ∧ ((runSession { r with stdinTd := Teardown.err msg }).1.filter
            (fun rec => rec.1 == "STDERR" || rec.1 == "STDERR_ERROR")
          = (runSession r).1.filter (fun rec => rec.1 == "STDERR" || rec.1 == "STDERR_ERROR"))
      ∧ ((runSession { r with stdinTd := Teardown.err msg }).1.filter
            (fun rec => rec.1 == "EXIT")
          = [(("EXIT" : String), exitPayload r.returncode)])
      ∧ (runSession { r with stdinTd := Teardown.err msg }).2 = (runSession r).2)
    ∧ (((runSession { r with stderrTd := Teardown.err msg }).1.filter
          (fun rec => rec.1 == "STDERR_ERROR")
        = [(("STDERR_ERROR" : String), msg)])
      ∧ ((runSession { r with stderrTd := Teardown.err msg }).1.filter
            (fun rec => rec.1 == "STDIN" || rec.1 == "STDIN_ERROR")
          = (runSession r).1.filter (fun rec => rec.1 == "STDIN" || rec.1 == "STDIN_ERROR"))
      ∧ ((runSession { r with stderrTd := Teardown.err msg }).1.filter
            (fun rec => rec.1 == "STDOUT" || rec.1 == "STDOUT_ERROR")
          = (runSession r).1.filter (fun rec => rec.1 == "STDOUT" || rec.1 == "STDOUT_ERROR"))
      ∧ ((runSession { r with stderrTd := Teardown.err msg }).1.filter
            (fun rec => rec.1 == "EXIT")
          = [(("EXIT" : String), exitPayload r.returncode)])
      ∧ (runSession { r with stderrTd := Teardown.err msg }).2 = (runSession r).2) := by
  refine ⟨⟨?_, ?_, ?_, session_exit_filter _, rfl⟩,
    ⟨?_, ?_, ?_, session_exit_filter _, rfl⟩,
    ⟨?_, ?_, ?_, session_exit_filter _, rfl⟩⟩
  · rw [session_filter _ _ rfl rfl]
    rw [pipeStdinRun_filter_nil _ _ _ (fun p => rfl) (fun p => rfl)]
    rw [pipeOutputRun_filter_nil "STDERR" _ _ _ (fun p => rfl) (fun p => rfl)]
    rw [pipeOutputRun_err_filter "STDOUT" _ msg _ (fun p => rfl) rfl]
    rfl
  · rw [session_filter _ _ rfl rfl,
      session_filter r _ rfl rfl]
    rw [pipeOutputRun_filter_nil "STDOUT" r.stdoutChunks (Teardown.err msg) _
        (fun p => rfl) (fun p => rfl),
      pipeOutputRun_filter_nil "STDOUT" r.stdoutChunks r.stdoutTd _
        (fun p => rfl) (fun p => rfl)]
  · rw [session_filter _ _ rfl rfl,
      session_filter r _ rfl rfl]
    rw [pipeOutputRun_filter_nil "STDOUT" r.stdoutChunks (Teardown.err msg) _
        (fun p => rfl) (fun p => rfl),
      pipeOutputRun_filter_nil "STDOUT" r.stdoutChunks r.stdoutTd _
        (fun p => rfl) (fun p => rfl)]
  · rw [session_filter _ _ rfl rfl]
    rw [pipeStdinRun_err_filter _ msg _ (fun p => rfl) rfl]
    rw [pipeOutputRun_filter_nil "STDOUT" _ _ _ (fun p => rfl) (fun p => rfl)]
    rw [pipeOutputRun_filter_nil "STDERR" _ _ _ (fun p => rfl) (fun p => rfl)]
    rfl
  · rw [session_filter _ _ rfl rfl,
      session_filter r _ rfl rfl]
    rw [pipeStdinRun_filter_nil r.stdinChunks (Teardown.err msg) _
        (fun p => rfl) (fun p => rfl),
      pipeStdinRun_filter_nil r.stdinChunks r.stdinTd _
        (fun p => rfl) (fun p => rfl)]
  · rw [session_filter _ _ rfl rfl,
      session_filter r _ rfl rfl]
    rw [pipeStdinRun_filter_nil r.stdinChunks (Teardown.err msg) _
        (fun p => rfl) (fun p => rfl),
      pipeStdinRun_filter_nil r.stdinChunks r.stdinTd _
        (fun p => rfl) (fun p => rfl)]
  · rw [session_filter _ _ rfl rfl]
    rw [pipeStdinRun_filter_nil _ _ _ (fun p => rfl) (fun p => rfl)]
    rw [pipeOutputRun_filter_nil "STDOUT" _ _ _ (fun p => rfl) (fun p => rfl)]
    rw [pipeOutputRun_err_filter "STDERR" _ msg _ (fun p => rfl) rfl]
    rfl
  · rw [session_filter _ _ rfl rfl,
      session_filter r _ rfl rfl]
    rw [pipeOutputRun_filter_nil "STDERR" r.stderrChunks (Teardown.err msg) _
        (fun p => rfl) (fun p => rfl),
      pipeOutputRun_filter_nil "STDERR" r.stderrChunks r.stderrTd _
        (fun p => rfl) (fun p => rfl)]
  · rw [session_filter _ _ rfl rfl,
      session_filter r _ rfl rfl]
    rw [pipeOutputRun_filter_nil "STDERR" r.stderrChunks (Teardown.err msg) _
        (fun p => rfl) (fun p => rfl),
      pipeOutputRun_filter_nil "STDERR" r.stderrChunks r.stderrTd _
        (fun p => rfl) (fun p => rfl)]

/-- C7: on every teardown path — natural end-of-stream, a caught
read/write error, or cancellation after child termination — a non-empty
trailing line buffer is emitted as the final log record of its
forwarder, for stdin and for either output direction: the `finally:`
blocks (claude-mitm.py lines 75–79 and 106–111) run on all three
paths. -/
theorem flush_on_every_teardown (chunks : List (List Nat)) (td : Teardown)
    (direction : String) (h : finalBuffer chunks ≠ []) :
    (pipeStdinRun chunks td).1.getLast? = some (("STDIN" : String), finalBuffer chunks)
      ∧ (pipeOutputRun direction chunks td).1.getLast?
          = some ((direction : String), finalBuffer chunks) := by
  rcases hf : forwardLoop chunks [] with ⟨fwd, recs, buf⟩
  have hbuf : finalBuffer chunks = buf := by simp [finalBuffer, hf]
  rw [hbuf] at h
  have hbe : ¬ buf.isEmpty = true := by simp [List.isEmpty_iff, h]
  rw [hbuf]
  constructor
  · simp only [pipeStdinRun, hf, if_neg hbe]
    rw [List.getLast?_concat]
  · simp only [pipeOutputRun, hf, if_neg hbe]
    rw [List.getLast?_concat]

theorem flush_on_every_teardown_witness :
    finalBuffer [[104]] ≠ []
      ∧ (pipeStdinRun [[104]] Teardown.cancel).1.getLast?
          = some (("STDIN" : String), finalBuffer [[104]]) :=
  ⟨by decide, (flush_on_every_teardown [[104]] Teardown.cancel "STDOUT" (by decide)).1⟩

/-! ## Write-before-log ordering -/

theorem writtenBytes_append (a b : List Ev) :
    writtenBytes (a ++ b) = writtenBytes a ++ writtenBytes b := by
  induction a with
  | nil => simp [writtenBytes]
  | cons e a ih => cases e <;> simp [writtenBytes, ih]

theorem writtenBytes_logRecs (ls : List (List Nat)) :
    writtenBytes (ls.map Ev.logRec) = [] := by
  induction ls with
  | nil => rfl
  | cons l ls ih => simpa [writtenBytes] using ih

theorem okTrace_append (a : List Ev) : ∀ (w : List Nat) (b : List Ev),
    OkTrace w (a ++ b) ↔ OkTrace w a ∧ OkTrace (w ++ writtenBytes a) b := by
  induction a with
  | nil => intro w b; simp [OkTrace, writtenBytes]
  | cons e a ih =>
    intro w b
    cases e with
    | write bs => simp [OkTrace, writtenBytes, ih, List.append_assoc]
    | logRec p => simp [OkTrace, writtenBytes, ih, and_assoc]

theorem okTrace_decomp (w : List Nat) (evs p s : List Ev) (rec : List Nat)
    (hok : OkTrace w evs) (heq : evs = p ++ Ev.logRec rec :: s) :
    rec <:+: (w ++ writtenBytes p) := by
  subst heq
  rw [okTrace_append] at hok
  exact hok.2.1

theorem okTrace_logRecs (w : List Nat) (ls : List (List Nat)) (h : ∀ l ∈ ls, l <:+: w) :
    OkTrace w (ls.map Ev.logRec) := by
  induction ls with
  | nil => trivial
  | cons l ls ih =>
    exact ⟨h l (List.mem_cons_self l ls),
      ih (fun x hx => h x (List.mem_cons_of_mem l hx))⟩

theorem suffix_append_same {buf w : List Nat} (c : List Nat) (h : buf <:+ w) :
    buf ++ c <:+ w ++ c := by
  obtain ⟨t, rfl⟩ := h
  exact ⟨t, (List.append_assoc t buf c).symm⟩

theorem drainLines_mem_infix (buf l : List Nat) (h : l ∈ (drainLines buf).1) : l <:+: buf :=
  drainLinesFuel_mem_infix buf.length buf l h

theorem drainLines_rem_suffix (buf : List Nat) : (drainLines buf).2 <:+ buf :=
  drainLinesFuel_rem_suffix buf.length buf

theorem traceLoop_ok : ∀ (chunks : List (List Nat)) (buf w : List Nat), buf <:+ w →
    OkTrace w (traceLoop chunks buf).1 := by
  intro chunks
  induction chunks with
  | nil => intro buf w _; trivial
  | cons c cs ih =>
    intro buf w hbw
    by_cases hc : c.isEmpty = true
    · simp only [traceLoop, if_pos hc]; trivial
    · rcases hd : drainLines (buf ++ c) with ⟨ls, buf2⟩
      rcases ht : traceLoop cs buf2 with ⟨evs, bufF⟩
      simp only [traceLoop, hd, ht, if_neg hc]
      show OkTrace (w ++ c) (ls.map Ev.logRec ++ evs)
      have hwc : buf ++ c <:+ w ++ c := suffix_append_same c hbw
      rw [okTrace_append]
      refine ⟨?_, ?_⟩
      · apply okTrace_logRecs
        intro l hl
        have hinf : l <:+: buf ++ c := by
          apply drainLines_mem_infix (buf ++ c) l
          rw [hd]
          exact hl
        exact hinf.trans hwc.isInfix
      · rw [writtenBytes_logRecs, List.append_nil]
        have hsuf : buf2 <:+ w ++ c := by
          have := drainLines_rem_suffix (buf ++ c)
          rw [hd] at this
          exact this.trans hwc
        have := ih buf2 (w ++ c) hsuf
        rw [ht] at this
        exact this

theorem traceLoop_buf_suffix : ∀ (chunks : List (List Nat)) (buf w : List Nat), buf <:+ w →
    (traceLoop chunks buf).2 <:+ w ++ writtenBytes (traceLoop chunks buf).1 := by
  intro chunks
  induction chunks with
  | nil => intro buf w hbw; simpa [traceLoop, writtenBytes] using hbw
  | cons c cs ih =>
    intro buf w hbw
    by_cases hc : c.isEmpty = true
    · have hce : c = [] := List.isEmpty_iff.mp hc
      subst hce
      simpa [traceLoop, writtenBytes] using hbw
    · rcases hd : drainLines (buf ++ c) with ⟨ls, buf2⟩
      rcases ht : traceLoop cs buf2 with ⟨evs, bufF⟩
      simp only [traceLoop, hd, ht, if_neg hc]
      have hwc : buf ++ c <:+ w ++ c := suffix_append_same c hbw
      have hsuf : buf2 <:+ w ++ c := by
        have := drainLines_rem_suffix (buf ++ c)
        rw [hd] at this
        exact this.trans hwc
      have key := ih buf2 (w ++ c) hsuf
      rw [ht] at key
      simp only at key
      show bufF <:+ w ++ writtenBytes (Ev.write c :: (ls.map Ev.logRec ++ evs))
      have : writtenBytes (Ev.write c :: (ls.map Ev.logRec ++ evs)) = c ++ writtenBytes evs := by
        show c ++ writtenBytes (ls.map Ev.logRec ++ evs) = c ++ writtenBytes evs
        rw [writtenBytes_append, writtenBytes_logRecs, List.nil_append]
      rw [this, ← List.append_assoc]
      exact key

theorem stdinTrace_ok (chunks : List (List Nat)) : OkTrace [] (stdinTrace chunks) := by
  rcases ht : traceLoop chunks [] with ⟨evs, buf⟩
  simp only [stdinTrace, ht]
  rw [okTrace_append]
  constructor
  · have := traceLoop_ok chunks [] [] (List.suffix_refl [])
    rw [ht] at this
    exact this
  · by_cases hbe : buf.isEmpty = true
    · simp only [if_pos hbe]; trivial
    · simp only [if_neg hbe]
      refine ⟨?_, trivial⟩
      have hsuf := traceLoop_buf_suffix chunks [] [] (List.suffix_refl [])
      rw [ht] at hsuf
      simp only [List.nil_append] at hsuf ⊢
      exact hsuf.isInfix

theorem outputTrace_ok (chunks : List (List Nat)) : OkTrace [] (outputTrace chunks) := by
  rcases ht : traceLoop chunks [] with ⟨evs, buf⟩
  simp only [outputTrace, ht]
  rw [okTrace_append]
  constructor
  · have := traceLoop_ok chunks [] [] (List.suffix_refl [])
    rw [ht] at this
    exact this
  · by_cases hbe : buf.isEmpty = true
    · simp only [if_pos hbe]; trivial
    · simp only [if_neg hbe]
      have hsuf := traceLoop_buf_suffix chunks [] [] (List.suffix_refl [])
      rw [ht] at hsuf
      simp only [List.nil_append] at hsuf
      exact ⟨hsuf.isInfix, trivial⟩

/-- C8: in the effect trace of either pipe coroutine, every payload
handed to `log` is an infix of the bytes already written to the
destination stream at that point: a record never reaches the log before
its source bytes have been forwarded (the write on line 61/92 is
awaited before the drain loop on lines 68–71 / 99–102 logs, and the
flush log only re-emits bytes forwarded earlier). -/
theorem write_before_log (chunks : List (List Nat)) (p s : List Ev) (rec : List Nat) :
    (stdinTrace chunks = p ++ Ev.logRec rec :: s → rec <:+: writtenBytes p)
      ∧ (outputTrace chunks = p ++ Ev.logRec rec :: s → rec <:+: writtenBytes p) := by
  refine ⟨fun heq => ?_, fun heq => ?_⟩
  · have := okTrace_decomp [] (stdinTrace chunks) p s rec (stdinTrace_ok chunks) heq
    simpa using this
  · have := okTrace_decomp [] (outputTrace chunks) p s rec (outputTrace_ok chunks) heq
    simpa using this

theorem write_before_log_witness :
    stdinTrace [[97, 10]] = [Ev.write [97, 10]] ++ Ev.logRec [97] :: []
      ∧ [97] <:+: writtenBytes [Ev.write [97, 10]] := by
  have h : stdinTrace [[97, 10]] = [Ev.write [97, 10]] ++ Ev.logRec [97] :: [] := by decide
  exact ⟨h, (write_before_log [[97, 10]] [Ev.write [97, 10]] [] [97]).1 h⟩

/-! ## The logging sink's classification -/

/-- C5: `log` decodes the payload bytes with a total, lossy decoding and
then classifies: if the decoded text parses as JSON the entry has
`type = "json"` and its `json` field is exactly the result of parsing
that text, with no `text` field; otherwise the entry has
`type = "text"` and its `text` field is exactly the decoded text, with
no `json` field — the two payload fields are mutually exclusive,
selected by `type`. -/
theorem log_classification (time direction : String) (data : List Nat) :
    (log time direction data).fd = direction
      ∧ (log time direction data).time = time
      ∧ (match parseJson (utf8DecodeReplace data) with
         | some v => (log time direction data).type = "json"
             ∧ (log time direction data).json = some v
             ∧ (log time direction data).text = none
         | none => (log time direction data).type = "text"
             ∧ (log time direction data).json = none
             ∧ (log time direction data).text = some (utf8DecodeReplace data)) := by
  cases h : parseJson (utf8DecodeReplace data) <;> simp [log, h]

/-! ## The anonymizer's frame property -/

mutual
theorem shapeVal_anonymize (p : String) : ∀ (v : JVal) (st : AnonState),
    shapeVal ((anonymize_value p v st).1) = shapeVal v
  | JVal.str s, st => by
    rcases hs : uuidSub p s st with ⟨s1, st1⟩
    simp [anonymize_value, hs, shapeVal]
  | JVal.num m e, st => rfl
  | JVal.bool b, st => rfl
  | JVal.null, st => rfl
  | JVal.arr xs, st => by
    rcases hx : anonymizeArr p xs st with ⟨xs1, st1⟩
    have h := shapeArr_anonymize p xs st
    rw [hx] at h
    simp only at h
    simp [anonymize_value, hx, shapeVal, h]
  | JVal.obj fs, st => by
    rcases hf : anonymizeObj p fs st with ⟨fs1, st1⟩
    have h := shapeObj_anonymize p fs st
    rw [hf] at h
    simp only at h
    simp [anonymize_value, hf, shapeVal, h]

theorem shapeArr_anonymize (p : String) : ∀ (xs : JArr) (st : AnonState),
    shapeArr ((anonymizeArr p xs st).1) = shapeArr xs
  | JArr.nil, _ => rfl
  | JArr.cons x xs, st => by
    rcases hx : anonymize_value p x st with ⟨x1, st1⟩
    rcases hxs : anonymizeArr p xs st1 with ⟨xs1, st2⟩
    have h1 := shapeVal_anonymize p x st
    rw [hx] at h1
    have h2 := shapeArr_anonymize p xs st1
    rw [hxs] at h2
    simp only at h1 h2
    simp [anonymizeArr, hx, hxs, shapeArr, h1, h2]

theorem shapeObj_anonymize (p : String) : ∀ (fs : JObj) (st : AnonState),
    shapeObj ((anonymizeObj p fs st).1) = shapeObj fs
  | JObj.nil, _ => rfl
  | JObj.cons k v fs, st => by
    rcases hv : anonymize_value p v st with ⟨v1, st1⟩
    rcases hfs : anonymizeObj p fs st1 with ⟨fs1, st2⟩
    have h1 := shapeVal_anonymize p v st
    rw [hv] at h1
    have h2 := shapeObj_anonymize p fs st1
    rw [hfs] at h2
    simp only at h1 h2
    simp [anonymizeObj, hv, hfs, shapeObj, h1, h2]
end

theorem objKeys_anonymizeObj (p : String) : ∀ (fs : JObj) (st : AnonState),
    objKeys ((anonymizeObj p fs st).1) = objKeys fs
  | JObj.nil, _ => rfl
  | JObj.cons k v fs, st => by
    rcases hv : anonymize_value p v st with ⟨v1, st1⟩
    rcases hfs : anonymizeObj p fs st1 with ⟨fs1, st2⟩
    have h := objKeys_anonymizeObj p fs st1
    rw [hfs] at h
    simp only at h
    simp [anonymizeObj, hv, hfs, objKeys, h]

/-- C10: `anonymize_value` rewrites only the contents of string values:
the result always has the same shape as the input (same structure, same
numbers, booleans and nulls, and — since a dict's keys are part of its
shape — the same keys at every depth, so a UUID used as an object key
is never anonymized), and the non-string primitives are returned
exactly as-is together with an unchanged state. -/
theorem anonymize_value_frame (p : String) (v : JVal) (st : AnonState) :
    shapeVal ((anonymize_value p v st).1) = shapeVal v
      ∧ (∀ (fs : JObj) (st2 : AnonState), objKeys ((anonymizeObj p fs st2).1) = objKeys fs)
      ∧ (∀ (m e : Int) (st2 : AnonState),
          anonymize_value p (JVal.num m e) st2 = (JVal.num m e, st2))
      ∧ (∀ (b : Bool) (st2 : AnonState),
          anonymize_value p (JVal.bool b) st2 = (JVal.bool b, st2))
      ∧ (∀ st2 : AnonState, anonymize_value p JVal.null st2 = (JVal.null, st2)) :=
  ⟨shapeVal_anonymize p v st, objKeys_anonymizeObj p,
    fun _ _ _ => rfl, fun _ _ => rfl, fun _ => rfl⟩

/-! ## Injectivity of the generated identifiers -/

theorem decDigitsAux_lt : ∀ (fuel n : Nat), ∀ d ∈ decDigitsAux fuel n, d < 10 := by
  intro fuel
  induction fuel with
  | zero => intro n d hd; simp [decDigitsAux] at hd
  | succ fuel ih =>
    intro n d hd
    simp only [decDigitsAux] at hd
    split at hd
    · rename_i h10
      rw [List.mem_singleton] at hd
      omega
    · rcases List.mem_cons.mp hd with rfl | hd
      · exact Nat.mod_lt _ (by omega)
      · exact ih _ d hd

theorem valOf_decDigitsAux : ∀ (fuel n : Nat), n < fuel → valOf (decDigitsAux fuel n) = n := by
  intro fuel
  induction fuel with
  | zero => intro n h; omega
  | succ fuel ih =>
    intro n h
    simp only [decDigitsAux]
    split
    · simp [valOf]
    · rename_i h10
      have hdiv : n / 10 < fuel := by
        have h1 : n / 10 < n := Nat.div_lt_self (by omega) (by omega)
        omega
      rw [valOf, ih (n / 10) hdiv]
      omega

theorem valOf_decDigits (n : Nat) : valOf (decDigits n) = n :=
  valOf_decDigitsAux (n + 1) n (Nat.lt_succ_self n)

theorem digitChar_toNat (d : Nat) (h : d < 10) : (digitChar d).toNat = 48 + d := by
  interval_cases d <;> decide

theorem charsVal_zeros_append (k : Nat) (ds : List Char) :
    charsVal (List.replicate k (digitChar 0) ++ ds) = charsVal ds := by
  have h0 : List.foldl (fun a c => 10 * a + (c.toNat - 48)) 0
      (List.replicate k (digitChar 0)) = 0 := by
    induction k with
    | zero => rfl
    | succ k ih =>
      rw [List.replicate_succ, List.foldl_cons]
      have : (10 * 0 + ((digitChar 0).toNat - 48)) = 0 := by decide
      rw [this, ih]
  unfold charsVal
  rw [List.foldl_append, h0]

theorem foldl_digits_rev : ∀ (L : List Nat), (∀ d ∈ L, d < 10) → ∀ a : Nat,
    List.foldl (fun x c => 10 * x + (c.toNat - 48)) a (L.reverse.map digitChar)
      = a * 10 ^ L.length + valOf L := by
  intro L
  induction L with
  | nil => intro _ a; simp [valOf]
  | cons d L ih =>
    intro hL a
    rw [List.reverse_cons, List.map_append, List.foldl_append]
    rw [ih (fun x hx => hL x (List.mem_cons_of_mem d hx)) a]
    simp only [List.map_cons, List.map_nil, List.foldl_cons, List.foldl_nil]
    rw [digitChar_toNat d (hL d (List.mem_cons_self d L))]
    rw [valOf, List.length_cons, pow_succ]
    have hd : 48 + d - 48 = d := by omega
    rw [hd]
    ring

theorem charsVal_seqChars (n : Nat) : charsVal (seqChars n) = n := by
  unfold seqChars
  rw [charsVal_zeros_append]
  unfold charsVal
  rw [foldl_digits_rev (decDigits n) (decDigitsAux_lt (n + 1) n) 0]
  rw [valOf_decDigits]
  omega

theorem renderAnon_injective (p : String) : Function.Injective (renderAnon p) := by
  intro m n h
  unfold renderAnon at h
  have hd := congrArg String.data h
  rw [String.data_append, String.data_append, String.data_append, String.data_append] at hd
  have h1 := List.append_cancel_left hd
  have h3 : seqChars m = seqChars n := h1
  have := charsVal_seqChars m
  rw [h3, charsVal_seqChars n] at this
  omega

/-! ## The UUID mapping is consistent and one-to-one -/

theorem lookup_mem : ∀ (l : List (String × String)) (k v : String),
    l.lookup k = some v → (k, v) ∈ l := by
  intro l
  induction l with
  | nil => intro k v h; simp [List.lookup] at h
  | cons e l ih =>
    intro k v h
    obtain ⟨k0, v0⟩ := e
    rw [List.lookup_cons] at h
    cases hk : k == k0 with
    | true =>
      rw [hk] at h
      injection h with h'
      have : k = k0 := eq_of_beq hk
      subst this
      subst h'
      exact List.mem_cons_self _ _
    | false =>
      rw [hk] at h
      exact List.mem_cons_of_mem _ (ih k v h)

theorem anonymize_uuid_preserves (u p : String) (st : AnonState) (k v : String)
    (h : st.1.lookup k = some v) : ((anonymize_uuid u p st).2).1.lookup k = some v := by
  unfold anonymize_uuid
  split
  · exact h
  · rename_i hl
    show List.lookup k ((u.toLower, renderAnon p (st.2 + 1)) :: st.1) = some v
    cases hk : k == u.toLower with
    | true =>
      have : k = u.toLower := eq_of_beq hk
      subst this
      rw [h] at hl
      exact absurd hl (by simp)
    | false =>
      rw [List.lookup_cons, hk]
      exact h

theorem anonymize_uuid_result (u p : String) (st : AnonState) :
    ((anonymize_uuid u p st).2).1.lookup u.toLower = some (anonymize_uuid u p st).1 := by
  unfold anonymize_uuid
  split
  · rename_i w hl
    exact hl
  · rename_i hl
    show List.lookup u.toLower ((u.toLower, renderAnon p (st.2 + 1)) :: st.1)
      = some (renderAnon p (st.2 + 1))
    rw [List.lookup_cons]
    have hbeq : (u.toLower == u.toLower) = true := beq_self_eq_true _
    rw [hbeq]

theorem processUuids_preserves (p : String) : ∀ (us : List String) (st : AnonState)
    (k v : String), st.1.lookup k = some v →
    ((processUuids p us st).2).1.lookup k = some v := by
  intro us
  induction us with
  | nil => intro st k v h; exact h
  | cons u us ih =>
    intro st k v h
    rcases hstep : anonymize_uuid u p st with ⟨r, st1⟩
    rcases hrec : processUuids p us st1 with ⟨rs, st2⟩
    simp only [processUuids, hstep, hrec]
    have h1 := anonymize_uuid_preserves u p st k v h
    rw [hstep] at h1
    have h2 := ih st1 k v h1
    rw [hrec] at h2
    exact h2

theorem processUuids_result (p : String) : ∀ (us : List String) (st : AnonState) (i : Nat),
    ((processUuids p us st).1)[i]?
      = (us[i]?).bind (fun u => ((processUuids p us st).2).1.lookup u.toLower) := by
  intro us
  induction us with
  | nil => intro st i; simp [processUuids]
  | cons u us ih =>
    intro st i
    rcases hstep : anonymize_uuid u p st with ⟨r, st1⟩
    rcases hrec : processUuids p us st1 with ⟨rs, st2⟩
    simp only [processUuids, hstep, hrec]
    cases i with
    | zero =>
      simp only [List.getElem?_cons_zero, Option.some_bind]
      have h1 := anonymize_uuid_result u p st
      rw [hstep] at h1
      simp only at h1
      have h2 := processUuids_preserves p us st1 u.toLower r h1
      rw [hrec] at h2
      exact h2.symm
    | succ i =>
      simp only [List.getElem?_cons_succ]
      have := ih st1 i
      rw [hrec] at this
      exact this

theorem processUuids_lookup_isSome (p : String) : ∀ (us : List String) (st : AnonState)
    (u : String), u ∈ us → (((processUuids p us st).2).1.lookup u.toLower).isSome := by
  intro us
  induction us with
  | nil => intro st u hu; cases hu
  | cons u0 us ih =>
    intro st u hu
    rcases hstep : anonymize_uuid u0 p st with ⟨r, st1⟩
    rcases hrec : processUuids p us st1 with ⟨rs, st2⟩
    simp only [processUuids, hstep, hrec]
    rcases List.mem_cons.mp hu with rfl | hu
    · have h1 := anonymize_uuid_result u p st
      rw [hstep] at h1
      simp only at h1
      have h2 := processUuids_preserves p us st1 u.toLower r h1
      rw [hrec] at h2
      simp [h2]
    · have := ih st1 u hu
      rw [hrec] at this
      exact this

theorem anonymize_uuid_inv (u p : String) (st : AnonState) (h : mapInv p st) :
    mapInv p (anonymize_uuid u p st).2 := by
  unfold anonymize_uuid
  split
  · exact h
  · rename_i hl
    show mapInv p ((u.toLower, renderAnon p (st.2 + 1)) :: st.1, st.2 + 1)
    unfold mapInv at h ⊢
    simp only [List.map_cons, h]
    rw [List.range'_concat]
    have harith : 1 + 1 * st.2 = st.2 + 1 := by omega
    rw [harith]
    simp

theorem processUuids_inv (p : String) : ∀ (us : List String) (st : AnonState),
    mapInv p st → mapInv p (processUuids p us st).2 := by
  intro us
  induction us with
  | nil => intro st h; exact h
  | cons u us ih =>
    intro st h
    rcases hstep : anonymize_uuid u p st with ⟨r, st1⟩
    rcases hrec : processUuids p us st1 with ⟨rs, st2⟩
    simp only [processUuids, hstep, hrec]
    have h1 := anonymize_uuid_inv u p st h
    rw [hstep] at h1
    have h2 := ih st1 h1
    rw [hrec] at h2
    exact h2

theorem inv_values_nodup (p : String) (st : AnonState) (h : mapInv p st) :
    (st.1.map Prod.snd).Nodup := by
  rw [h]
  apply List.Nodup.map (renderAnon_injective p)
  rw [List.nodup_reverse]
  exact List.nodup_range' 1 st.2

theorem values_nodup_unique : ∀ (l : List (String × String)),
    (l.map Prod.snd).Nodup → ∀ (k1 k2 v : String),
    (k1, v) ∈ l → (k2, v) ∈ l → k1 = k2 := by
  intro l
  induction l with
  | nil => intro _ k1 k2 v h1; cases h1
  | cons e l ih =>
    intro hnd k1 k2 v h1 h2
    obtain ⟨ek, ev⟩ := e
    rw [List.map_cons, List.nodup_cons] at hnd
    rcases List.mem_cons.mp h1 with h1 | h1 <;> rcases List.mem_cons.mp h2 with h2 | h2
    · have e1 : k1 = ek := congrArg Prod.fst h1
      have e2 : k2 = ek := congrArg Prod.fst h2
      rw [e1, e2]
    · exfalso
      have hv : ev = v := (congrArg Prod.snd h1).symm
      exact hnd.1 (hv ▸ List.mem_map.mpr ⟨(k2, v), h2, rfl⟩)
    · exfalso
      have hv : ev = v := (congrArg Prod.snd h2).symm
      exact hnd.1 (hv ▸ List.mem_map.mpr ⟨(k1, v), h1, rfl⟩)
    · exact ih hnd.2 k1 k2 v h1 h2

theorem final_lookup_inj (p : String) (us : List String) (a b v : String)
    (ha : ((processUuids p us ([], 0)).2).1.lookup a = some v)
    (hb : ((processUuids p us ([], 0)).2).1.lookup b = some v) : a = b := by
  have hinv : mapInv p ((processUuids p us ([], 0)).2) :=
    processUuids_inv p us ([], 0) (by simp [mapInv])
  have hnd := inv_values_nodup p _ hinv
  exact values_nodup_unique _ hnd a b v (lookup_mem _ a v ha) (lookup_mem _ b v hb)

/-- C9: within one run of the anonymizer, the UUID mapping is a
consistent one-to-one function on occurrences: the i-th and j-th UUID
occurrences receive the same generated identifier exactly when the
original UUIDs agree up to case.  (Consistency is the forward
implication, injectivity of the generated identifiers the reverse.) -/
theorem uuid_mapping_consistent_one_to_one (p : String) (us : List String) (i j : Nat) :
    ((us[i]?).map String.toLower = (us[j]?).map String.toLower)
      ↔ (anonResults p us)[i]? = (anonResults p us)[j]? := by
  unfold anonResults
  rw [processUuids_result p us ([], 0) i, processUuids_result p us ([], 0) j]
  constructor
  · intro h
    cases hi : us[i]? with
    | none =>
      cases hj : us[j]? with
      | none => simp
      | some b => rw [hi, hj] at h; simp at h
    | some a =>
      cases hj : us[j]? with
      | none => rw [hi, hj] at h; simp at h
      | some b =>
        rw [hi, hj] at h
        simp only [Option.map_some'] at h
        injection h with h'
        simp only [Option.some_bind]
        rw [h']
  · intro h
    cases hi : us[i]? with
    | none =>
      cases hj : us[j]? with
      | none => simp [hi, hj]
      | some b =>
        exfalso
        rw [hi, hj] at h
        simp only [Option.none_bind, Option.some_bind] at h
        have hb := processUuids_lookup_isSome p us ([], 0) b (List.getElem?_mem hj)
        rw [← h] at hb
        simp at hb
    | some a =>
      cases hj : us[j]? with
      | none =>
        exfalso
        rw [hi, hj] at h
        simp only [Option.none_bind, Option.some_bind] at h
        have ha := processUuids_lookup_isSome p us ([], 0) a (List.getElem?_mem hi)
        rw [h] at ha
        simp at ha
      | some b =>
        rw [hi, hj] at h
        simp only [Option.some_bind] at h
        have ha := processUuids_lookup_isSome p us ([], 0) a (List.getElem?_mem hi)
        obtain ⟨v, hv⟩ := Option.isSome_iff_exists.mp ha
        have hb : ((processUuids p us ([], 0)).2).1.lookup b.toLower = some v := by
          rw [← h, hv]
        have := final_lookup_inj p us a.toLower b.toLower v hv hb
        simp [this]

end CCInsights
